import Mathlib

/-!
Verification development for the THF planning-grid generator (src/pdf.py).

Dates are modelled as integer day numbers (addition of a `timedelta(days=k)`
becomes integer addition), Python ints as `ℤ`, and Python floats as exact
rationals `ℚ`.  Fallible code paths are modelled with `Except`.
-/

namespace THF

/-- Represents a scheduled task for a contractor (dataclass `Task`, pdf.py
lines 45-51). -/
structure Task where
  contractor : String
  name : String
  start_date : ℤ
  duration_days : ℤ
deriving DecidableEq

/-- Inclusive end date of a task: `start_date + timedelta(days=duration_days - 1)`
(pdf.py line 486). -/
def taskEnd (t : Task) : ℤ := t.start_date + t.duration_days - 1

/-- The task's inclusive interval covers calendar day `d`. -/
def covers (t : Task) (d : ℤ) : Prop := t.start_date ≤ d ∧ d ≤ taskEnd t

instance (t : Task) (d : ℤ) : Decidable (covers t d) := by
  unfold covers; infer_instance

/-- Two tasks' inclusive date intervals intersect. -/
def overlap (t u : Task) : Prop := ∃ d : ℤ, covers t d ∧ covers u d

/-- Number of tasks in the list whose interval covers day `d`. -/
def depth (ts : List Task) (d : ℤ) : ℕ :=
  (ts.filter (fun t => decide (covers t d))).length

/-! ### Lane scheduler (pdf.py lines 469-518, identical copy at 792-838) -/

/-- Fuel-driven search for the smallest slot `≥ s` not in `used`; models
`slot = 0; while slot in used_slots: slot += 1` (lines 492-494). -/
def mexAux (used : List ℕ) : ℕ → ℕ → ℕ
  | 0, s => s
  | fuel + 1, s => if s ∈ used then mexAux used fuel (s + 1) else s

/-- Smallest natural number not occurring in `used`. -/
def mex (used : List ℕ) : ℕ := mexAux used (used.length + 1) 0

/-- Comparison key used by `idxs.sort(key=lambda i: tasks[i].start_date)`. -/
def byStart (a b : Task) : Prop := a.start_date ≤ b.start_date

instance : DecidableRel byStart := fun a b => Int.decLe a.start_date b.start_date

instance : IsTotal Task byStart := ⟨fun a b => le_total a.start_date b.start_date⟩

instance : IsTrans Task byStart := ⟨fun _ _ _ h1 h2 => le_trans h1 h2⟩

/-- One contractor's greedy lane-assignment loop over already-sorted tasks
(pdf.py lines 483-498): evict active entries whose end date is before the new
task's start, pick the smallest free slot, record `(end_date, slot)` as
active.  Returns the tasks paired with their assigned lane, in processing
order. -/
def runSched : List Task → List (ℤ × ℕ) → List (Task × ℕ)
  | [], _ => []
  | t :: rest, active =>
    let active2 := active.filter (fun a => decide (t.start_date ≤ a.1))
    let slot := mex (active2.map Prod.snd)
    (t, slot) :: runSched rest (active2 ++ [(taskEnd t, slot)])

/-- One contractor's tasks, in original input order
(`contractor_task_indices`, pdf.py lines 471-473). -/
def tasksOf (ts : List Task) (c : String) : List Task :=
  ts.filter (fun t => decide (t.contractor = c))

/-- Lane assignment for a list of tasks of one contractor: stable sort by
start date (line 479), then the greedy loop starting from an empty active
set. -/
def assignSlots (ts : List Task) : List (Task × ℕ) :=
  runSched (ts.insertionSort byStart) []

/-- Number of distinct lane indices used. -/
def laneCount (ts : List Task) : ℕ :=
  ((assignSlots ts).map Prod.snd).toFinset.card

/-- `max_slot` accumulator for a contractor: starts at `-1`, folds `max`
over the assigned slots (pdf.py lines 485, 498, 500). -/
def maxSlotOf (R : List (Task × ℕ)) : ℤ :=
  R.foldl (fun m p => max m (p.2 : ℤ)) (-1)

/-- Accumulator step for first-appearance order of dictionary keys. -/
def addIfNew (acc : List String) (s : String) : List String :=
  if s ∈ acc then acc else acc ++ [s]

/-- Contractor names in first-appearance order (defaultdict key order,
pdf.py lines 471-473). -/
def contractorsOf (ts : List Task) : List String :=
  (ts.map Task.contractor).foldl addIfNew []

/-- `preferred_order` (pdf.py line 503). -/
def preferredOrder : List String := ["Dynamic Motion", "MediaPro", "Ocubo"]

/-- Contractor stacking order: preferred contractors that are present first,
then remaining contractors in first-appearance order (pdf.py lines 503-510). -/
def orderedContractors (ts : List Task) : List String :=
  preferredOrder.filter (fun c => decide (c ∈ contractorsOf ts)) ++
    (contractorsOf ts).filter (fun c => decide (c ∉ preferredOrder))

/-- A contractor's contribution to the running base offset:
`max_slot + 1` if it used any lane, else `0` (pdf.py lines 516-518). -/
def contribOf (ts : List Task) (c : String) : ℤ :=
  if 0 ≤ maxSlotOf (assignSlots (tasksOf ts c)) then
    maxSlotOf (assignSlots (tasksOf ts c)) + 1
  else 0

/-- The running-sum loop assigning `base_stack_for_contractor`
(pdf.py lines 512-518); returns 0 for contractors not in the list,
matching `base_stack_for_contractor.get(_, 0)`. -/
def baseOffsetAux (ts : List Task) : List String → ℤ → String → ℤ
  | [], _, _ => 0
  | h :: rest, cur, c =>
    if h = c then cur else baseOffsetAux ts rest (cur + contribOf ts h) c

/-- `base_stack_for_contractor.get(c, 0)`. -/
def baseOffset (ts : List Task) (c : String) : ℤ :=
  baseOffsetAux ts (orderedContractors ts) 0 c

/-! ### Task colour shading (pdf.py lines 304-340) -/

/-- A reportlab colour with components in `[0, 1]`. -/
structure Color where
  red : ℚ
  green : ℚ
  blue : ℚ
deriving DecidableEq

/-- Python `x % 1.0` for (exact) reals: the fractional part. -/
def mod1 (x : ℚ) : ℚ := x - ⌊x⌋

/-- `colorsys.rgb_to_hls`, translated exactly. -/
def rgbToHls (r g b : ℚ) : ℚ × ℚ × ℚ :=
  let maxc := max r (max g b)
  let minc := min r (min g b)
  let sumc := maxc + minc
  let rangec := maxc - minc
  let l := sumc / 2
  if minc = maxc then (0, l, 0)
  else
    let s := if l ≤ 1 / 2 then rangec / sumc else rangec / (2 - sumc)
    let rc := (maxc - r) / rangec
    let gc := (maxc - g) / rangec
    let bc := (maxc - b) / rangec
    let h := if r = maxc then bc - gc
             else if g = maxc then 2 + rc - bc
             else 4 + gc - rc
    (mod1 (h / 6), l, s)

/-- `colorsys._v`, the hue-to-channel helper. -/
def hlsV (m1 m2 hue : ℚ) : ℚ :=
  let hue2 := mod1 hue
  if hue2 < 1 / 6 then m1 + (m2 - m1) * hue2 * 6
  else if hue2 < 1 / 2 then m2
  else if hue2 < 2 / 3 then m1 + (m2 - m1) * (2 / 3 - hue2) * 6
  else m1

/-- `colorsys.hls_to_rgb`, translated exactly. -/
def hlsToRgb (h l s : ℚ) : ℚ × ℚ × ℚ :=
  if s = 0 then (l, l, l)
  else
    let m2 := if l ≤ 1 / 2 then l * (1 + s) else l + s - l * s
    let m1 := 2 * l - m2
    (hlsV m1 m2 (h + 1 / 3), hlsV m1 m2 h, hlsV m1 m2 (h - 1 / 3))

/-- `make_shade_for_task` (pdf.py lines 304-340): returns the base colour
unchanged when `total <= 1`, otherwise interpolates lightness over
`[0.35, 0.80]` and applies a `±0.03` hue shift at constant saturation. -/
def make_shade_for_task (base_color : Color) (index : ℤ) (total : ℤ) : Color :=
  if total ≤ 1 then base_color
  else
    let t := (index : ℚ) / ((max 1 (total - 1) : ℤ) : ℚ)
    let hls := rgbToHls base_color.red base_color.green base_color.blue
    let lNew := 35 / 100 + (80 / 100 - 35 / 100) * t
    let hNew := mod1 (hls.1 + (t - 1 / 2) * (6 / 100))
    let rgb := hlsToRgb hNew lNew hls.2.2
    ⟨rgb.1, rgb.2.1, rgb.2.2⟩

/-! ### Page geometry and configuration checks (pdf.py lines 347-380, 696-721) -/

/-- One millimetre in points (`mm = 72 / 25.4`). -/
def mmQ : ℚ := 360 / 127

/-- Landscape A3 page width in points (`420 mm`). -/
def pageWidth : ℚ := 420 * mmQ

/-- Landscape A3 page height in points (`297 mm`). -/
def pageHeight : ℚ := 297 * mmQ

/-- The kind of Python exception escaping a generator's setup code. -/
inductive PyError where
  | valueError
  | zeroDivisionError
deriving DecidableEq

/-- The geometry values computed by a generator's setup code. -/
structure GridGeom where
  num_days : ℤ
  rows : ℤ
  usableWidth : ℚ
  usableHeight : ℚ
  cellWidth : ℚ
  cellHeight : ℚ
deriving DecidableEq

/-- `math.ceil(a / b)` for an integer `a` and positive integer `b`. -/
def ceilDivZ (a : ℤ) (b : ℕ) : ℤ := Int.ediv (a + b - 1) b

/-- Setup prologue of `generate_planning_grid` (pdf.py lines 365-383):
validates `end_date >= start_date` first, then computes `num_days`, `rows`
(a `ZeroDivisionError` if `cols == 0`), the usable area (a `ValueError` if
non-positive), and the cell dimensions. -/
def gen1Setup (s e : ℤ) (cols : ℕ) (margin_mm header_mm : ℚ) :
    Except PyError GridGeom :=
  if e < s then .error .valueError
  else
    let nd : ℤ := e - s + 1
    if cols = 0 then .error .zeroDivisionError
    else
      let rows : ℤ := ceilDivZ nd cols
      let margin := margin_mm * mmQ
      let header := header_mm * mmQ
      let uw := pageWidth - 2 * margin
      let uh := pageHeight - 2 * margin - header
      if uw ≤ 0 ∨ uh ≤ 0 then .error .valueError
      else .ok ⟨nd, rows, uw, uh, uw / (cols : ℚ), uh / (rows : ℚ)⟩

/-- Setup prologue of `generate_planning_grid_with_manpower` (pdf.py lines
696-721): checks only the usable area, never `end_date < start_date`; then
computes `num_days`, `rows` and divides by them — `cell_height =
usable_height / rows` raises `ZeroDivisionError` when `rows == 0`, and when
`rows < 0` the call proceeds with negative geometry. -/
def gen2Setup (s e : ℤ) (cols : ℕ) (margin_mm header_mm : ℚ) :
    Except PyError GridGeom :=
  let margin := margin_mm * mmQ
  let header := header_mm * mmQ
  let uw := pageWidth - 2 * margin
  let uh := pageHeight - 2 * margin - header
  if uw ≤ 0 ∨ uh ≤ 0 then .error .valueError
  else if cols = 0 then .error .zeroDivisionError
  else
    let nd : ℤ := e - s + 1
    let rows : ℤ := ceilDivZ nd cols
    if rows = 0 then .error .zeroDivisionError
    else .ok ⟨nd, rows, uw, uh, uw / (cols : ℚ), uh / (rows : ℚ)⟩

/-! ### Calendar grid cells (pdf.py lines 368-369, 421-449) -/

/-- `rows = math.ceil(num_days / cols)` for natural inputs. -/
def gridRowsN (numDays cols : ℕ) : ℕ := (numDays + cols - 1) / cols

/-- `col = idx % cols` (pdf.py line 433). -/
def gridCol (cols idx : ℕ) : ℕ := idx % cols

/-- `row = (rows - 1) - idx // cols` (pdf.py lines 434-435), as a Python
integer. -/
def gridRow (numDays cols idx : ℕ) : ℤ :=
  (gridRowsN numDays cols : ℤ) - 1 - (idx / cols : ℕ)

/-- `x = grid_origin_x + col * cell_width` (pdf.py line 437). -/
def cellX (margin cw : ℚ) (cols idx : ℕ) : ℚ :=
  margin + (gridCol cols idx : ℚ) * cw

/-- `y = grid_origin_y + row * cell_height` (pdf.py line 438). -/
def cellY (margin ch : ℚ) (numDays cols idx : ℕ) : ℚ :=
  margin + (gridRow numDays cols idx : ℚ) * ch

/-- The background/date-position loop (pdf.py lines 429-449): iterates cell
indices, breaking as soon as the current date passes `end_date`; records for
each date its `(col, row)` cell and that cell's bottom-left origin. -/
def gridLoop (s e : ℤ) (numDays cols : ℕ) (margin cw ch : ℚ) :
    ℕ → ℕ → List (ℤ × (ℕ × ℤ) × ℚ × ℚ)
  | 0, _ => []
  | fuel + 1, idx =>
    if e < s + idx then []
    else
      (s + idx, (gridCol cols idx, gridRow numDays cols idx),
        cellX margin cw cols idx, cellY margin ch numDays cols idx) ::
        gridLoop s e numDays cols margin cw ch fuel (idx + 1)

/-- `date_positions` construction: the loop run for `rows * cols` cells
starting at index 0. -/
def gridCells (s e : ℤ) (cols : ℕ) (margin cw ch : ℚ) :
    List (ℤ × (ℕ × ℤ) × ℚ × ℚ) :=
  gridLoop s e (e - s + 1).toNat cols margin cw ch
    (gridRowsN (e - s + 1).toNat cols * cols) 0

/-! ### Manpower aggregation (pdf.py lines 1001-1026) -/

/-- `manpower_by_trade`: a dictionary from trade name to a dictionary from
date to headcount. -/
def TradeMap := String → Option (ℤ → Option ℚ)

/-- `manpower_by_trade.get(trade, {}).get(d, 0.0)` (pdf.py lines 1007-1008). -/
def valueAt (mbt : TradeMap) (trade : String) (d : ℤ) : ℚ :=
  (((mbt trade).getD (fun _ => none)) d).getD 0

/-- `dates_list = [start_date + i * one_day for i in range(num_days)]`
(pdf.py line 1002). -/
def datesList (s : ℤ) (n : ℕ) : List ℤ :=
  (List.range n).map (fun (i : ℕ) => s + (i : ℤ))

/-- `values_per_trade[trade]` (pdf.py lines 1005-1008): the aligned per-day
series for one trade, missing days defaulting to 0. -/
def valuesPerTrade (mbt : TradeMap) (trade : String) (s : ℤ) (n : ℕ) : List ℚ :=
  (datesList s n).map (fun d => valueAt mbt trade d)

/-- `totals_per_day` (pdf.py lines 1011-1014): elementwise sum across the
trades of `trade_order`. -/
def totalsPerDay (mbt : TradeMap) (order : List String) (s : ℤ) (n : ℕ) :
    List ℚ :=
  (List.range n).map
    (fun (i : ℕ) => (order.map (fun trade => valueAt mbt trade (s + (i : ℤ)))).sum)

/-- `total_man_days = sum(totals_per_day)` (pdf.py line 1019). -/
def totalManDays (mbt : TradeMap) (order : List String) (s : ℤ) (n : ℕ) : ℚ :=
  (totalsPerDay mbt order s n).sum

/-- `working_days = sum(1 for v in totals_per_day if v > 0)` (line 1020). -/
def workingDays (mbt : TradeMap) (order : List String) (s : ℤ) (n : ℕ) : ℕ :=
  (totalsPerDay mbt order s n).countP (fun v => decide (0 < v))

/-- `avg_all_days` (pdf.py line 1021). -/
def avgAllDays (mbt : TradeMap) (order : List String) (s : ℤ) (n : ℕ) : ℚ :=
  if 0 < n then totalManDays mbt order s n / (n : ℚ) else 0

/-- `avg_working_days` (pdf.py line 1022). -/
def avgWorkingDays (mbt : TradeMap) (order : List String) (s : ℤ) (n : ℕ) : ℚ :=
  if 0 < workingDays mbt order s n then
    totalManDays mbt order s n / (workingDays mbt order s n : ℚ)
  else 0

/-- Python `max` over a list, with `0.0` for the empty list (as in
`max(totals_per_day) if totals_per_day else 0.0`). -/
def listMax : List ℚ → ℚ
  | [] => 0
  | v :: rest => rest.foldl max v

/-- `peak = max(totals_per_day) if totals_per_day else 0.0` (line 1023);
the same expression also initialises `max_val` at line 1015. -/
def peakOf (mbt : TradeMap) (order : List String) (s : ℤ) (n : ℕ) : ℚ :=
  listMax (totalsPerDay mbt order s n)

/-- `max_val` after the guard `if max_val <= 0: max_val = 1.0`
(pdf.py lines 1015-1017). -/
def maxVal (mbt : TradeMap) (order : List String) (s : ℤ) (n : ℕ) : ℚ :=
  if peakOf mbt order s n ≤ 0 then 1 else peakOf mbt order s n

/-- `peak_dates = [d for d, v in zip(dates_list, totals_per_day) if v == peak
and v > 0]` (pdf.py lines 1024-1026). -/
def peakDates (mbt : TradeMap) (order : List String) (s : ℤ) (n : ℕ) : List ℤ :=
  (((datesList s n).zip (totalsPerDay mbt order s n)).filter
    (fun p => decide (p.2 = peakOf mbt order s n ∧ 0 < p.2))).map Prod.fst

/-! ### Stacked histogram layout (pdf.py lines 1094-1139) -/

/-- The inner per-day stacking loop (pdf.py lines 1100-1139): walks the
trades in `trade_order`, skipping non-positive values and non-positive
segment heights, and emits `(trade, segment_bottom, segment_height)` while
accumulating `cumulative_height`. -/
def segAux (mbt : TradeMap) (s : ℤ) (i : ℕ) (M H B : ℚ) :
    List String → ℚ → List (String × ℚ × ℚ)
  | [], _ => []
  | trade :: rest, cum =>
    if valueAt mbt trade (s + i) ≤ 0 then segAux mbt s i M H B rest cum
    else if (valueAt mbt trade (s + i) / M) * H ≤ 0 then segAux mbt s i M H B rest cum
    else (trade, B + cum, (valueAt mbt trade (s + i) / M) * H) ::
      segAux mbt s i M H B rest (cum + (valueAt mbt trade (s + i) / M) * H)

/-- The drawn segments for day `i`: the stacking loop over `trade_order`
with divisor `max_val`, chart height `H` and chart bottom `B`. -/
def histSegments (mbt : TradeMap) (order : List String) (s : ℤ) (n : ℕ)
    (i : ℕ) (H B : ℚ) : List (String × ℚ × ℚ) :=
  segAux mbt s i (maxVal mbt order s n) H B order 0

/-- The cumulative height of the segments drawn for the trades preceding
`tr` in the trade order on day `i`: the positive-valued earlier trades,
each contributing `(value / M) * H`.  This is the claim's "cumulative
heights of the earlier trades' segments". -/
def prevHeights (mbt : TradeMap) (s : ℤ) (i : ℕ) (M H : ℚ)
    (order : List String) (tr : String) : ℚ :=
  (((order.takeWhile (fun u => decide (u ≠ tr))).filter
      (fun u => decide (0 < valueAt mbt u (s + (i : ℤ))))).map
    (fun u => (valueAt mbt u (s + (i : ℤ)) / M) * H)).sum

/-- Inserting (or replacing) one trade's series in `manpower_by_trade`. -/
def updateTrade (mbt : TradeMap) (trade : String) (m : ℤ → Option ℚ) : TradeMap :=
  fun c => if c = trade then some m else mbt c

/-! ### Concrete example inputs (used by witnesses) -/

/-- The spec's example manpower input: one trade with values
day 4 → 2, day 5 → 0, day 6 → 3 (Dec 4-6 as integer day numbers). -/
def exampleMbt : TradeMap :=
  fun trade =>
    if trade = "Steel" then
      some (fun d =>
        if d = 4 then some 2
        else if d = 5 then some 0
        else if d = 6 then some 3
        else none)
    else none

/-- The example's trade order. -/
def exampleOrder : List String := ["Steel"]

/-- A two-trade manpower input for the histogram example: on day 0 trade A
has value 2 and trade B has value 1. -/
def histMbt : TradeMap :=
  fun trade =>
    if trade = "A" then some (fun d => if d = 0 then some 2 else none)
    else if trade = "B" then some (fun d => if d = 0 then some 1 else none)
    else none

/-- Trade order for the histogram example. -/
def histOrder : List String := ["A", "B"]

/-- The spec's example task list: contractor A with tasks
(start 4, duration 3) and (start 5, duration 2), plus one task of
contractor B. -/
def exampleTasks : List Task :=
  [⟨"A", "t1", 4, 3⟩, ⟨"A", "t2", 5, 2⟩, ⟨"B", "t3", 4, 1⟩]

/-! ## Lemmas and claim theorems -/

/-! ### Generic list helpers -/

lemma sum_map_add {β : Type*} (l : List β) (g h : β → ℚ) :
    (l.map (fun b => g b + h b)).sum = (l.map g).sum + (l.map h).sum := by
  induction l with
  | nil => simp
  | cons a t ih => simp only [List.map_cons, List.sum_cons, ih]; ring

lemma sum_map_comm {α β : Type*} (l1 : List α) (l2 : List β) (f : α → β → ℚ) :
    (l1.map (fun a => (l2.map (fun b => f a b)).sum)).sum =
      (l2.map (fun b => (l1.map (fun a => f a b)).sum)).sum := by
  induction l1 with
  | nil => simp
  | cons a t ih =>
    simp only [List.map_cons, List.sum_cons, ih, ← sum_map_add]

lemma getD_map_range (f : ℕ → ℚ) (n i : ℕ) (hi : i < n) :
    ((List.range n).map f).getD i 0 = f i := by
  have hlen : i < ((List.range n).map f).length := by simpa using hi
  rw [List.getD_eq_getElem _ _ hlen]
  simp

lemma valuesPerTrade_eq (mbt : TradeMap) (trade : String) (s : ℤ) (n : ℕ) :
    valuesPerTrade mbt trade s n =
      (List.range n).map (fun (i : ℕ) => valueAt mbt trade (s + (i : ℤ))) := by
  simp [valuesPerTrade, datesList, List.map_map, Function.comp]

/-! ### Claim C9 -/

/-- Claim C9: `make_shade_for_task` is a pure deterministic function of
`(base_color, index, total)` — equal arguments give equal colours — and
whenever `total ≤ 1` it returns the base colour unchanged. -/
theorem make_shade_deterministic_and_boundary (b b' : Color) (i i' t t' : ℤ)
    (hb : b = b') (hi : i = i') (ht : t = t') :
    make_shade_for_task b i t = make_shade_for_task b' i' t' ∧
      (t ≤ 1 → make_shade_for_task b i t = b) := by
  subst hb hi ht
  refine ⟨rfl, fun h => ?_⟩
  simp [make_shade_for_task, h]

/-- Witness for C9 at the boundary input `(base, 0, 1)` with the
Dynamic Motion base colour `#0077B6`. -/
theorem make_shade_boundary_witness :
    make_shade_for_task ⟨0, 119 / 255, 182 / 255⟩ 0 1 = ⟨0, 119 / 255, 182 / 255⟩ :=
  (make_shade_deterministic_and_boundary ⟨0, 119 / 255, 182 / 255⟩
    ⟨0, 119 / 255, 182 / 255⟩ 0 0 1 1 rfl rfl rfl).2 (by decide)

/-! ### Claim C5 -/

/-- Claim C5: each day's total is the elementwise sum over the trades of
`trade_order` of that trade's aligned value for the day (missing days
defaulting to 0), and `total_man_days` is the sum over all trades and all
days in range of their values. -/
theorem aggregation_conservation (mbt : TradeMap) (order : List String)
    (s : ℤ) (n : ℕ) :
    (∀ i, i < n →
      (totalsPerDay mbt order s n).getD i 0 =
        (order.map (fun trade => (valuesPerTrade mbt trade s n).getD i 0)).sum) ∧
    totalManDays mbt order s n =
      (order.map (fun trade => (valuesPerTrade mbt trade s n).sum)).sum := by
  constructor
  · intro i hi
    have h1 : (totalsPerDay mbt order s n).getD i 0 =
        (order.map (fun trade => valueAt mbt trade (s + i))).sum := by
      simpa [totalsPerDay] using
        getD_map_range
          (fun j => (order.map (fun trade => valueAt mbt trade (s + j))).sum) n i hi
    rw [h1]
    congr 1
    refine List.map_congr_left ?_
    intro trade _
    rw [valuesPerTrade_eq]
    exact (getD_map_range (fun j : ℕ => valueAt mbt trade (s + (j : ℤ))) n i hi).symm
  · rw [totalManDays, totalsPerDay, sum_map_comm]
    congr 1
    refine List.map_congr_left ?_
    intro trade _
    rw [valuesPerTrade_eq]

/-- Witness for C5 at the spec's example manpower input. -/
theorem aggregation_conservation_witness :
    (totalsPerDay exampleMbt exampleOrder 4 3).getD 0 0 =
      (exampleOrder.map
        (fun trade => (valuesPerTrade exampleMbt trade 4 3).getD 0 0)).sum ∧
    totalManDays exampleMbt exampleOrder 4 3 =
      (exampleOrder.map
        (fun trade => (valuesPerTrade exampleMbt trade 4 3).sum)).sum :=
  ⟨(aggregation_conservation exampleMbt exampleOrder 4 3).1 0 (by decide),
   (aggregation_conservation exampleMbt exampleOrder 4 3).2⟩

/-! ### Claim C4 -/

/-- Claim C4 is violated by the code: `generate_planning_grid_with_manpower`
never validates `end_date < start_date`.  With `start=1, end=0` (defaults
`cols=7, margin=10, header=18`) its setup reaches
`cell_height = usable_height / rows` with `rows = 0` and raises
`ZeroDivisionError`, not the configuration `ValueError`; with `start=20,
end=0` it silently proceeds (`rows = -2`).  `generate_planning_grid` does
raise the configuration error for the same input. -/
theorem gen2_missing_end_date_check :
    gen2Setup 1 0 7 10 18 = Except.error PyError.zeroDivisionError ∧
    gen2Setup 20 0 7 10 18 =
      Except.ok ⟨-19, -2, 144000 / 127, 93240 / 127, 144000 / 889, -(46620 / 127)⟩ ∧
    gen1Setup 1 0 7 10 18 = Except.error PyError.valueError := by
  refine ⟨?_, ?_, ?_⟩ <;>
    · simp only [gen1Setup, gen2Setup, ceilDivZ, mmQ, pageWidth, pageHeight]
      norm_num

/-! ### Claim C10 -/

lemma valueAt_update_ne (mbt : TradeMap) (m : ℤ → Option ℚ) (tr u : String)
    (h : u ≠ tr) (d : ℤ) :
    valueAt (updateTrade mbt tr m) u d = valueAt mbt u d := by
  simp [valueAt, updateTrade, h]

lemma segAux_trade_mem (mbt : TradeMap) (s : ℤ) (i : ℕ) (M H B : ℚ) :
    ∀ (l : List String) (cum : ℚ) (p : String × ℚ × ℚ),
      p ∈ segAux mbt s i M H B l cum → p.1 ∈ l := by
  intro l
  induction l with
  | nil => intro cum p hp; simp [segAux] at hp
  | cons a t ih =>
    intro cum p hp
    rw [segAux] at hp
    by_cases h1 : valueAt mbt a (s + i) ≤ 0
    · rw [if_pos h1] at hp
      exact List.mem_cons_of_mem _ (ih _ _ hp)
    · rw [if_neg h1] at hp
      by_cases h2 : (valueAt mbt a (s + i) / M) * H ≤ 0
      · rw [if_pos h2] at hp
        exact List.mem_cons_of_mem _ (ih _ _ hp)
      · rw [if_neg h2] at hp
        rcases List.mem_cons.mp hp with hp | hp
        · rw [hp]; exact List.mem_cons_self _ _
        · exact List.mem_cons_of_mem _ (ih _ _ hp)

lemma segAux_congr (mbt mbt' : TradeMap) (s : ℤ) (i : ℕ) (M H B : ℚ) :
    ∀ (l : List String) (cum : ℚ),
      (∀ u ∈ l, valueAt mbt' u (s + i) = valueAt mbt u (s + i)) →
      segAux mbt' s i M H B l cum = segAux mbt s i M H B l cum := by
  intro l
  induction l with
  | nil => intro cum _; rfl
  | cons a t ih =>
    intro cum hv
    have ha : valueAt mbt' a (s + i) = valueAt mbt a (s + i) :=
      hv a (List.mem_cons_self _ _)
    have ht : ∀ u ∈ t, valueAt mbt' u (s + i) = valueAt mbt u (s + i) :=
      fun u hu => hv u (List.mem_cons_of_mem _ hu)
    rw [segAux, segAux, ha, ih _ ht, ih _ ht]

lemma totalsPerDay_update (mbt : TradeMap) (m : ℤ → Option ℚ) (tr : String)
    (order : List String) (s : ℤ) (n : ℕ) (h : tr ∉ order) :
    totalsPerDay (updateTrade mbt tr m) order s n = totalsPerDay mbt order s n := by
  unfold totalsPerDay
  refine List.map_congr_left ?_
  intro i _
  congr 1
  refine List.map_congr_left ?_
  intro u hu
  exact valueAt_update_ne mbt m tr u (fun e => h (e ▸ hu)) _

/-- Claim C10: a trade present in `manpower_by_trade` but absent from
`trade_order` contributes nothing: daily totals, `total_man_days`, working
days, averages, peak, peak dates and the drawn histogram segments are all
unchanged by inserting such a trade's series, and no segment is drawn for
it. -/
theorem trade_not_in_order_contributes_nothing (mbt : TradeMap)
    (m : ℤ → Option ℚ) (tr : String) (order : List String) (s : ℤ) (n : ℕ)
    (H B : ℚ) (h : tr ∉ order) :
    totalsPerDay (updateTrade mbt tr m) order s n = totalsPerDay mbt order s n ∧
    totalManDays (updateTrade mbt tr m) order s n = totalManDays mbt order s n ∧
    workingDays (updateTrade mbt tr m) order s n = workingDays mbt order s n ∧
    avgAllDays (updateTrade mbt tr m) order s n = avgAllDays mbt order s n ∧
    avgWorkingDays (updateTrade mbt tr m) order s n = avgWorkingDays mbt order s n ∧
    peakOf (updateTrade mbt tr m) order s n = peakOf mbt order s n ∧
    peakDates (updateTrade mbt tr m) order s n = peakDates mbt order s n ∧
    (∀ i, histSegments (updateTrade mbt tr m) order s n i H B =
      histSegments mbt order s n i H B) ∧
    (∀ i p, p ∈ histSegments (updateTrade mbt tr m) order s n i H B → p.1 ≠ tr) := by
  have htot := totalsPerDay_update mbt m tr order s n h
  have htmd : totalManDays (updateTrade mbt tr m) order s n =
      totalManDays mbt order s n := by rw [totalManDays, htot, totalManDays]
  have hwd : workingDays (updateTrade mbt tr m) order s n =
      workingDays mbt order s n := by rw [workingDays, htot, workingDays]
  have hpk : peakOf (updateTrade mbt tr m) order s n = peakOf mbt order s n := by
    rw [peakOf, htot, peakOf]
  have hmv : maxVal (updateTrade mbt tr m) order s n = maxVal mbt order s n := by
    rw [maxVal, hpk, maxVal]
  have hseg : ∀ i, histSegments (updateTrade mbt tr m) order s n i H B =
      histSegments mbt order s n i H B := by
    intro i
    rw [histSegments, histSegments, hmv]
    refine segAux_congr mbt (updateTrade mbt tr m) s i _ H B order 0 ?_
    intro u hu
    exact valueAt_update_ne mbt m tr u (fun e => h (e ▸ hu)) _
  refine ⟨htot, htmd, hwd, ?_, ?_, hpk, ?_, hseg, ?_⟩
  · rw [avgAllDays, htmd, avgAllDays]
  · rw [avgWorkingDays, htmd, hwd, avgWorkingDays]
  · rw [peakDates, htot, hpk, peakDates]
  · intro i p hp
    have hmem : p.1 ∈ order := by
      have := hseg i ▸ hp
      exact segAux_trade_mem mbt s i _ H B order 0 p this
    exact fun e => h (e ▸ hmem)

/-- Witness for C10: inserting an extra trade `X` (with a nonzero value)
not listed in the example's trade order changes nothing. -/
theorem trade_not_in_order_witness :
    totalsPerDay (updateTrade exampleMbt ("X") (fun _ => some 9)) exampleOrder 4 3 =
      totalsPerDay exampleMbt exampleOrder 4 3 ∧
    totalManDays (updateTrade exampleMbt ("X") (fun _ => some 9)) exampleOrder 4 3 =
      totalManDays exampleMbt exampleOrder 4 3 ∧
    workingDays (updateTrade exampleMbt ("X") (fun _ => some 9)) exampleOrder 4 3 =
      workingDays exampleMbt exampleOrder 4 3 ∧
    avgAllDays (updateTrade exampleMbt ("X") (fun _ => some 9)) exampleOrder 4 3 =
      avgAllDays exampleMbt exampleOrder 4 3 ∧
    avgWorkingDays (updateTrade exampleMbt ("X") (fun _ => some 9)) exampleOrder 4 3 =
      avgWorkingDays exampleMbt exampleOrder 4 3 ∧
    peakOf (updateTrade exampleMbt ("X") (fun _ => some 9)) exampleOrder 4 3 =
      peakOf exampleMbt exampleOrder 4 3 ∧
    peakDates (updateTrade exampleMbt ("X") (fun _ => some 9)) exampleOrder 4 3 =
      peakDates exampleMbt exampleOrder 4 3 ∧
    (∀ i, histSegments (updateTrade exampleMbt ("X") (fun _ => some 9))
        exampleOrder 4 3 i 100 20 =
      histSegments exampleMbt exampleOrder 4 3 i 100 20) ∧
    (∀ i p, p ∈ histSegments (updateTrade exampleMbt ("X") (fun _ => some 9))
        exampleOrder 4 3 i 100 20 → p.1 ≠ ("X")) :=
  trade_not_in_order_contributes_nothing exampleMbt (fun _ => some 9) ("X")
    exampleOrder 4 3 100 20 (by decide)

/-! ### Claim C6 -/

lemma foldl_max_le_init (l : List ℚ) (a : ℚ) : a ≤ l.foldl max a := by
  induction l generalizing a with
  | nil => exact le_refl a
  | cons b t ih =>
    rw [List.foldl_cons]
    exact le_trans (le_max_left a b) (ih (max a b))

lemma le_foldl_max (l : List ℚ) : ∀ (a x : ℚ), x ∈ l → x ≤ l.foldl max a := by
  induction l with
  | nil => intro a x hx; cases hx
  | cons b t ih =>
    intro a x hx
    rw [List.foldl_cons]
    rcases List.mem_cons.mp hx with rfl | h
    · exact le_trans (le_max_right a x) (foldl_max_le_init t (max a x))
    · exact ih (max a b) x h

lemma foldl_max_mem (l : List ℚ) : ∀ (a : ℚ), l.foldl max a = a ∨ l.foldl max a ∈ l := by
  induction l with
  | nil => intro a; left; rfl
  | cons b t ih =>
    intro a
    rw [List.foldl_cons]
    rcases ih (max a b) with h | h
    · rcases le_total a b with hab | hba
      · right; rw [h, max_eq_right hab]; exact List.mem_cons_self _ _
      · left; rw [h, max_eq_left hba]
    · right; exact List.mem_cons_of_mem _ h

lemma listMax_mem (l : List ℚ) (h : l ≠ []) : listMax l ∈ l := by
  cases l with
  | nil => exact absurd rfl h
  | cons v t =>
    rw [listMax]
    rcases foldl_max_mem t v with h1 | h1
    · rw [h1]; exact List.mem_cons_self _ _
    · exact List.mem_cons_of_mem _ h1

lemma listMax_ge (l : List ℚ) (x : ℚ) (hx : x ∈ l) : x ≤ listMax l := by
  cases l with
  | nil => cases hx
  | cons v t =>
    rw [listMax]
    rcases List.mem_cons.mp hx with rfl | h
    · exact foldl_max_le_init t x
    · exact le_foldl_max t v x h

/-- Claim C6 (amended): for `num_days ≥ 1`, `working_days` counts the days
with positive total, `avg_all_days = total_man_days / num_days`,
`avg_working_days = total_man_days / working_days` when positive and 0
otherwise, `peak` is the maximum of the daily totals, and — amended — the
reported peak dates are exactly the dates whose total equals `peak`
*provided `peak > 0`*; when `peak ≤ 0` no peak dates are reported.  The
spec's Dec 4-6 example values are also verified. -/
theorem manpower_summary_statistics (mbt : TradeMap) (order : List String)
    (s : ℤ) (n : ℕ) (hn : 1 ≤ n) :
    workingDays mbt order s n =
      ((totalsPerDay mbt order s n).filter (fun v => decide (0 < v))).length ∧
    avgAllDays mbt order s n = totalManDays mbt order s n / (n : ℚ) ∧
    (0 < workingDays mbt order s n →
      avgWorkingDays mbt order s n =
        totalManDays mbt order s n / (workingDays mbt order s n : ℚ)) ∧
    (workingDays mbt order s n = 0 → avgWorkingDays mbt order s n = 0) ∧
    peakOf mbt order s n ∈ totalsPerDay mbt order s n ∧
    (∀ v ∈ totalsPerDay mbt order s n, v ≤ peakOf mbt order s n) ∧
    (0 < peakOf mbt order s n →
      peakDates mbt order s n =
        (((datesList s n).zip (totalsPerDay mbt order s n)).filter
          (fun p => decide (p.2 = peakOf mbt order s n))).map Prod.fst) ∧
    (peakOf mbt order s n ≤ 0 → peakDates mbt order s n = []) ∧
    totalManDays exampleMbt exampleOrder 4 3 = 5 ∧
    workingDays exampleMbt exampleOrder 4 3 = 2 ∧
    avgAllDays exampleMbt exampleOrder 4 3 = 5 / 3 ∧
    avgWorkingDays exampleMbt exampleOrder 4 3 = 5 / 2 ∧
    peakOf exampleMbt exampleOrder 4 3 = 3 ∧
    peakDates exampleMbt exampleOrder 4 3 = [6] := by
  have hT : totalsPerDay mbt order s n ≠ [] := by
    have hlen : (totalsPerDay mbt order s n).length = n := by simp [totalsPerDay]
    intro hnil
    rw [hnil] at hlen
    simp at hlen
    omega
  refine ⟨?_, ?_, ?_, ?_, ?_, ?_, ?_, ?_, ?_⟩
  · rw [workingDays, List.countP_eq_length_filter]
  · rw [avgAllDays, if_pos (by omega : 0 < n)]
  · intro h; rw [avgWorkingDays, if_pos h]
  · intro h; rw [avgWorkingDays, if_neg (by omega)]
  · exact listMax_mem _ hT
  · exact fun v hv => listMax_ge _ v hv
  · intro hpk
    have hpred : (fun p : ℤ × ℚ => decide (p.2 = peakOf mbt order s n ∧ 0 < p.2)) =
        (fun p : ℤ × ℚ => decide (p.2 = peakOf mbt order s n)) := by
      funext p
      by_cases hp : p.2 = peakOf mbt order s n
      · simp [hp, hpk]
      · simp [hp]
    rw [peakDates, hpred]
  · intro hpk
    rw [peakDates]
    have hnil : ((datesList s n).zip (totalsPerDay mbt order s n)).filter
        (fun p => decide (p.2 = peakOf mbt order s n ∧ 0 < p.2)) = [] := by
      rw [List.filter_eq_nil_iff]
      intro p _
      simp only [decide_eq_true_eq, not_and]
      intro h1 h2
      rw [h1] at h2
      exact absurd h2 (not_lt.mpr hpk)
    rw [hnil, List.map_nil]
  · norm_num [totalManDays, totalsPerDay, workingDays, avgAllDays,
      avgWorkingDays, peakOf, peakDates, datesList, valueAt, listMax,
      exampleMbt, exampleOrder, List.range_succ, max_def, List.countP_cons,
      List.countP_nil]

/-- Claim C6 as stated is false at an all-zero manpower input: the peak is
0 and every date's total equals it, yet the code reports no peak dates
(the comprehension additionally requires `v > 0`). -/
theorem peak_dates_as_stated_false :
    peakDates (fun _ => none) (["A"]) 0 1 ≠
      (((datesList 0 1).zip (totalsPerDay (fun _ => none) (["A"]) 0 1)).filter
        (fun p => decide (p.2 = peakOf (fun _ => none) (["A"]) 0 1))).map
        Prod.fst := by
  norm_num [peakDates, peakOf, totalsPerDay, datesList, valueAt, listMax,
    List.range_succ]

/-- Witness for C6 at the spec's concrete example input. -/
theorem manpower_summary_witness :
    workingDays exampleMbt exampleOrder 4 3 =
      ((totalsPerDay exampleMbt exampleOrder 4 3).filter
        (fun v => decide (0 < v))).length ∧
    avgAllDays exampleMbt exampleOrder 4 3 =
      totalManDays exampleMbt exampleOrder 4 3 / (3 : ℚ) ∧
    (0 < workingDays exampleMbt exampleOrder 4 3 →
      avgWorkingDays exampleMbt exampleOrder 4 3 =
        totalManDays exampleMbt exampleOrder 4 3 /
          (workingDays exampleMbt exampleOrder 4 3 : ℚ)) ∧
    (workingDays exampleMbt exampleOrder 4 3 = 0 →
      avgWorkingDays exampleMbt exampleOrder 4 3 = 0) ∧
    peakOf exampleMbt exampleOrder 4 3 ∈ totalsPerDay exampleMbt exampleOrder 4 3 ∧
    (∀ v ∈ totalsPerDay exampleMbt exampleOrder 4 3,
      v ≤ peakOf exampleMbt exampleOrder 4 3) ∧
    (0 < peakOf exampleMbt exampleOrder 4 3 →
      peakDates exampleMbt exampleOrder 4 3 =
        (((datesList 4 3).zip (totalsPerDay exampleMbt exampleOrder 4 3)).filter
          (fun p => decide (p.2 = peakOf exampleMbt exampleOrder 4 3))).map
          Prod.fst) ∧
    (peakOf exampleMbt exampleOrder 4 3 ≤ 0 →
      peakDates exampleMbt exampleOrder 4 3 = []) ∧
    totalManDays exampleMbt exampleOrder 4 3 = 5 ∧
    workingDays exampleMbt exampleOrder 4 3 = 2 ∧
    avgAllDays exampleMbt exampleOrder 4 3 = 5 / 3 ∧
    avgWorkingDays exampleMbt exampleOrder 4 3 = 5 / 2 ∧
    peakOf exampleMbt exampleOrder 4 3 = 3 ∧
    peakDates exampleMbt exampleOrder 4 3 = [6] :=
  manpower_summary_statistics exampleMbt exampleOrder 4 3 (by decide)

/-! ### Claim C7 -/

lemma numDays_le_cells (n c : ℕ) (hc : 1 ≤ c) : n ≤ gridRowsN n c * c := by
  rw [gridRowsN]
  have hmod := Nat.div_add_mod (n + c - 1) c
  have hr : (n + c - 1) % c < c := Nat.mod_lt _ (by omega)
  rw [mul_comm]
  omega

lemma gridRowsN_eq_ceil (n c : ℕ) (hc : 1 ≤ c) :
    gridRowsN n c = ⌈(n : ℚ) / (c : ℚ)⌉₊ := by
  have hc0 : (0 : ℚ) < (c : ℚ) := by exact_mod_cast hc
  apply le_antisymm
  · have hn : n ≤ c * ⌈(n : ℚ) / (c : ℚ)⌉₊ := by
      have h1 : (n : ℚ) / c ≤ (⌈(n : ℚ) / (c : ℚ)⌉₊ : ℚ) := Nat.le_ceil _
      have h2 : (n : ℚ) ≤ (c : ℚ) * (⌈(n : ℚ) / (c : ℚ)⌉₊ : ℚ) := by
        rw [mul_comm]
        exact (div_le_iff₀ hc0).mp h1
      exact_mod_cast h2
    rw [mul_comm] at hn
    rw [gridRowsN]
    have h4 : n + c - 1 < (⌈(n : ℚ) / (c : ℚ)⌉₊ + 1) * c := by
      rw [add_mul, one_mul]
      omega
    exact Nat.lt_succ_iff.mp ((Nat.div_lt_iff_lt_mul (by omega)).mpr h4)
  · apply Nat.ceil_le.mpr
    rw [div_le_iff₀ hc0]
    have hmod := Nat.div_add_mod (n + c - 1) c
    have hr : (n + c - 1) % c < c := Nat.mod_lt _ (by omega)
    have h3 : n ≤ ((n + c - 1) / c) * c := by
      rw [mul_comm]
      omega
    rw [gridRowsN]
    exact_mod_cast h3

lemma gridLoop_eq_range' (s e : ℤ) (numDays cols : ℕ) (margin cw ch : ℚ)
    (hnd : (numDays : ℤ) = e - s + 1) :
    ∀ (fuel idx : ℕ),
      gridLoop s e numDays cols margin cw ch fuel idx =
        (List.range' idx (min (numDays - idx) fuel)).map
          (fun (i : ℕ) => (s + (i : ℤ), (gridCol cols i, gridRow numDays cols i),
            cellX margin cw cols i, cellY margin ch numDays cols i)) := by
  intro fuel
  induction fuel with
  | zero => intro idx; simp [gridLoop]
  | succ fuel ih =>
    intro idx
    rw [gridLoop]
    by_cases hbreak : e < s + (idx : ℤ)
    · rw [if_pos hbreak]
      have hz : numDays - idx = 0 := by omega
      rw [hz]
      simp
    · rw [if_neg hbreak]
      have hlt : idx < numDays := by omega
      have hmin : min (numDays - idx) (fuel + 1) =
          (min (numDays - (idx + 1)) fuel) + 1 := by omega
      rw [hmin, List.range'_succ, List.map_cons, ih (idx + 1)]

/-- Claim C7: for a date range of `num_days` days and `cols ≥ 1` columns,
`rows = ceil(num_days / cols)`; every date in range is assigned exactly one
cell, the date at 0-based offset `idx` getting column `idx mod cols`, row
`(rows - 1) - idx div cols` (counted from the bottom) and bottom-left
origin `(margin + col·cell_width, margin + row·cell_height)`; distinct
dates in range get distinct cells. -/
theorem grid_coverage_and_geometry (s e : ℤ) (cols n : ℕ) (margin cw ch : ℚ)
    (hc : 1 ≤ cols) (hse : s ≤ e) (hn : (n : ℤ) = e - s + 1) :
    gridRowsN n cols = ⌈(n : ℚ) / (cols : ℚ)⌉₊ ∧
    gridCells s e cols margin cw ch =
      (List.range n).map
        (fun (i : ℕ) => (s + (i : ℤ), (gridCol cols i, gridRow n cols i),
          cellX margin cw cols i, cellY margin ch n cols i)) ∧
    (∀ i, gridCol cols i = i % cols ∧
      gridRow n cols i = (gridRowsN n cols : ℤ) - 1 - ((i / cols : ℕ) : ℤ) ∧
      cellX margin cw cols i = margin + ((i % cols : ℕ) : ℚ) * cw ∧
      cellY margin ch n cols i = margin + ((gridRow n cols i : ℤ) : ℚ) * ch) ∧
    (∀ i j, i < n → j < n → i ≠ j →
      (gridCol cols i, gridRow n cols i) ≠ (gridCol cols j, gridRow n cols j)) := by
  have htn : (e - s + 1).toNat = n := by omega
  refine ⟨gridRowsN_eq_ceil n cols hc, ?_, ?_, ?_⟩
  · rw [gridCells, htn,
      gridLoop_eq_range' s e n cols margin cw ch hn (gridRowsN n cols * cols) 0]
    have hmin : min (n - 0) (gridRowsN n cols * cols) = n := by
      have := numDays_le_cells n cols hc
      omega
    rw [hmin, ← List.range_eq_range']
  · intro i
    exact ⟨rfl, rfl, rfl, rfl⟩
  · intro i j _ _ hij hEq
    have h1 : gridCol cols i = gridCol cols j := congrArg Prod.fst hEq
    have h2 : gridRow n cols i = gridRow n cols j := congrArg Prod.snd hEq
    rw [gridCol, gridCol] at h1
    rw [gridRow, gridRow] at h2
    have h3 : i / cols = j / cols := by omega
    have hdm1 := Nat.div_add_mod i cols
    have hdm2 := Nat.div_add_mod j cols
    rw [h3] at hdm1
    omega

/-- Witness for C7: the spec's example range (3 days, 7 columns) extended
to a full week, with unit cell dimensions. -/
theorem grid_coverage_witness :
    gridRowsN 7 7 = ⌈(7 : ℚ) / (7 : ℚ)⌉₊ ∧
    gridCells 0 6 7 0 1 1 =
      (List.range 7).map
        (fun (i : ℕ) => ((0 : ℤ) + (i : ℤ), (gridCol 7 i, gridRow 7 7 i),
          cellX 0 1 7 i, cellY 0 1 7 7 i)) ∧
    (∀ i, gridCol 7 i = i % 7 ∧
      gridRow 7 7 i = (gridRowsN 7 7 : ℤ) - 1 - ((i / 7 : ℕ) : ℤ) ∧
      cellX 0 1 7 i = 0 + ((i % 7 : ℕ) : ℚ) * 1 ∧
      cellY 0 1 7 7 i = 0 + ((gridRow 7 7 i : ℤ) : ℚ) * 1) ∧
    (∀ i j, i < 7 → j < 7 → i ≠ j →
      (gridCol 7 i, gridRow 7 7 i) ≠ (gridCol 7 j, gridRow 7 7 j)) :=
  grid_coverage_and_geometry 0 6 7 7 0 1 1 (by decide) (by decide) (by decide)

/-! ### Claim C8 -/

lemma segAux_nil_of_nonpos (mbt : TradeMap) (s : ℤ) (i : ℕ) (M H B : ℚ) :
    ∀ (l : List String) (cum : ℚ),
      (∀ u ∈ l, valueAt mbt u (s + (i : ℤ)) ≤ 0) →
      segAux mbt s i M H B l cum = [] := by
  intro l
  induction l with
  | nil => intro cum _; rfl
  | cons a t ih =>
    intro cum hl
    rw [segAux, if_pos (hl a (List.mem_cons_self _ _))]
    exact ih cum (fun u hu => hl u (List.mem_cons_of_mem _ hu))

lemma segAux_spec (mbt : TradeMap) (s : ℤ) (i : ℕ) (M H B : ℚ)
    (hM : 0 < M) (hH : 0 < H) (tr : String)
    (hv : 0 < valueAt mbt tr (s + (i : ℤ))) :
    ∀ (l : List String) (cum : ℚ), l.Nodup → tr ∈ l →
      ((tr, B + cum + prevHeights mbt s i M H l tr,
          (valueAt mbt tr (s + (i : ℤ)) / M) * H) ∈ segAux mbt s i M H B l cum ∧
        ∀ b h, (tr, b, h) ∈ segAux mbt s i M H B l cum →
          b = B + cum + prevHeights mbt s i M H l tr ∧
          h = (valueAt mbt tr (s + (i : ℤ)) / M) * H) := by
  intro l
  induction l with
  | nil => intro cum _ htr; cases htr
  | cons a t ih =>
    intro cum hnd htr
    have hand := List.nodup_cons.mp hnd
    by_cases hat : a = tr
    · subst hat
      have hpw : prevHeights mbt s i M H (a :: t) a = 0 := by
        simp [prevHeights, List.takeWhile_cons]
      have hsegH : 0 < (valueAt mbt a (s + (i : ℤ)) / M) * H :=
        mul_pos (div_pos hv hM) hH
      rw [segAux, if_neg (not_le.mpr hv), if_neg (not_le.mpr hsegH), hpw, add_zero]
      constructor
      · exact List.mem_cons_self _ _
      · intro b h hmem
        rcases List.mem_cons.mp hmem with heq | hmem'
        · simp only [Prod.mk.injEq] at heq
          exact ⟨heq.2.1, heq.2.2⟩
        · exfalso
          exact hand.1 (segAux_trade_mem mbt s i M H B t _ _ hmem')
    · have htrt : tr ∈ t := by
        rcases List.mem_cons.mp htr with heq | h
        · exact absurd heq.symm hat
        · exact h
      have htw : (a :: t).takeWhile (fun u => decide (u ≠ tr)) =
          a :: t.takeWhile (fun u => decide (u ≠ tr)) := by
        simp [List.takeWhile_cons, hat]
      by_cases hva : valueAt mbt a (s + (i : ℤ)) ≤ 0
      · have hd : (decide (0 < valueAt mbt a (s + (i : ℤ)))) = false :=
          decide_eq_false_iff_not.mpr (not_lt.mpr hva)
        have hpw : prevHeights mbt s i M H (a :: t) tr =
            prevHeights mbt s i M H t tr := by
          rw [prevHeights, prevHeights, htw, List.filter_cons]
          simp [hd]
        rw [segAux, if_pos hva, hpw]
        exact ih cum hand.2 htrt
      · have hva' : 0 < valueAt mbt a (s + (i : ℤ)) := lt_of_not_le hva
        have hsegHa : 0 < (valueAt mbt a (s + (i : ℤ)) / M) * H :=
          mul_pos (div_pos hva' hM) hH
        have hd : (decide (0 < valueAt mbt a (s + (i : ℤ)))) = true :=
          decide_eq_true hva'
        have hpw : prevHeights mbt s i M H (a :: t) tr =
            (valueAt mbt a (s + (i : ℤ)) / M) * H + prevHeights mbt s i M H t tr := by
          rw [prevHeights, prevHeights, htw, List.filter_cons]
          simp [hd]
        have harith : B + (cum + (valueAt mbt a (s + (i : ℤ)) / M) * H) +
            prevHeights mbt s i M H t tr =
            B + cum + prevHeights mbt s i M H (a :: t) tr := by
          rw [hpw]; ring
        rw [segAux, if_neg hva, if_neg (not_le.mpr hsegHa)]
        obtain ⟨ihmem, ihuniq⟩ :=
          ih (cum + (valueAt mbt a (s + (i : ℤ)) / M) * H) hand.2 htrt
        constructor
        · exact List.mem_cons_of_mem _ (harith ▸ ihmem)
        · intro b h hmem
          rcases List.mem_cons.mp hmem with heq | hmem'
          · exfalso
            simp only [Prod.mk.injEq] at heq
            exact hat heq.1.symm
          · obtain ⟨hb, hh⟩ := ihuniq b h hmem'
            exact ⟨hb.trans harith, hh⟩

/-- Claim C8: with non-negative headcounts, the normalising divisor is
positive (no division by zero); when the maximum daily total is `≤ 0` it is
replaced by 1 and no segment is drawn (all segments trivially have zero
height); and every trade with a positive value on a day gets exactly one
segment, of height `(value / max_daily_total) * chart_height`, whose bottom
is the chart bottom plus the cumulative heights of the earlier trades'
segments in trade order (zero-valued trades omitted). -/
theorem histogram_stacking (mbt : TradeMap) (order : List String) (s : ℤ)
    (n i : ℕ) (H B : ℚ) (hnd : order.Nodup)
    (hnn : ∀ u ∈ order, ∀ j, j < n → 0 ≤ valueAt mbt u (s + (j : ℤ)))
    (hi : i < n) (hH : 0 < H) :
    0 < maxVal mbt order s n ∧
    (peakOf mbt order s n ≤ 0 → maxVal mbt order s n = 1) ∧
    (peakOf mbt order s n ≤ 0 → histSegments mbt order s n i H B = []) ∧
    (∀ tr ∈ order, 0 < valueAt mbt tr (s + (i : ℤ)) →
      maxVal mbt order s n = peakOf mbt order s n ∧
      (tr, B + prevHeights mbt s i (peakOf mbt order s n) H order tr,
        (valueAt mbt tr (s + (i : ℤ)) / peakOf mbt order s n) * H) ∈
        histSegments mbt order s n i H B ∧
      (∀ b h, (tr, b, h) ∈ histSegments mbt order s n i H B →
        b = B + prevHeights mbt s i (peakOf mbt order s n) H order tr ∧
        h = (valueAt mbt tr (s + (i : ℤ)) / peakOf mbt order s n) * H)) := by
  have htotmem : (order.map (fun u => valueAt mbt u (s + (i : ℤ)))).sum ∈
      totalsPerDay mbt order s n := by
    rw [totalsPerDay]
    exact List.mem_map_of_mem _ (List.mem_range.mpr hi)
  have hle_peak : (order.map (fun u => valueAt mbt u (s + (i : ℤ)))).sum ≤
      peakOf mbt order s n := listMax_ge _ _ htotmem
  have hv_le_total : ∀ u ∈ order, valueAt mbt u (s + (i : ℤ)) ≤
      (order.map (fun u => valueAt mbt u (s + (i : ℤ)))).sum := by
    intro u hu
    refine List.single_le_sum ?_ _ (List.mem_map_of_mem _ hu)
    intro x hx
    obtain ⟨u', hu', rfl⟩ := List.mem_map.mp hx
    exact hnn u' hu' i hi
  refine ⟨?_, ?_, ?_, ?_⟩
  · rw [maxVal]
    split_ifs with h
    · norm_num
    · exact lt_of_not_le h
  · intro h
    rw [maxVal, if_pos h]
  · intro h
    rw [histSegments]
    refine segAux_nil_of_nonpos mbt s i _ H B order 0 ?_
    intro u hu
    exact le_trans (hv_le_total u hu) (le_trans hle_peak h)
  · intro tr htr hv
    have hpk : 0 < peakOf mbt order s n :=
      lt_of_lt_of_le hv (le_trans (hv_le_total tr htr) hle_peak)
    have hMeq : maxVal mbt order s n = peakOf mbt order s n := by
      rw [maxVal, if_neg (not_le.mpr hpk)]
    have hspec := segAux_spec mbt s i (peakOf mbt order s n) H B hpk hH tr hv
      order 0 hnd htr
    have hz : B + 0 + prevHeights mbt s i (peakOf mbt order s n) H order tr =
        B + prevHeights mbt s i (peakOf mbt order s n) H order tr := by ring
    refine ⟨hMeq, ?_, ?_⟩
    · rw [histSegments, hMeq]
      exact hz ▸ hspec.1
    · intro b h hmem
      rw [histSegments, hMeq] at hmem
      obtain ⟨hb, hh⟩ := hspec.2 b h hmem
      exact ⟨hb.trans hz, hh⟩

/-- Witness for C8 on the two-trade example (day 0: trade A has 2,
trade B has 1; chart height 10, chart bottom 3). -/
theorem histogram_stacking_witness :
    0 < maxVal histMbt histOrder 0 1 ∧
    (peakOf histMbt histOrder 0 1 ≤ 0 → maxVal histMbt histOrder 0 1 = 1) ∧
    (peakOf histMbt histOrder 0 1 ≤ 0 → histSegments histMbt histOrder 0 1 0 10 3 = []) ∧
    (∀ tr ∈ histOrder, 0 < valueAt histMbt tr ((0 : ℤ) + ((0 : ℕ) : ℤ)) →
      maxVal histMbt histOrder 0 1 = peakOf histMbt histOrder 0 1 ∧
      (tr, 3 + prevHeights histMbt 0 0 (peakOf histMbt histOrder 0 1) 10 histOrder tr,
        (valueAt histMbt tr ((0 : ℤ) + ((0 : ℕ) : ℤ)) / peakOf histMbt histOrder 0 1) * 10) ∈
        histSegments histMbt histOrder 0 1 0 10 3 ∧
      (∀ b h, (tr, b, h) ∈ histSegments histMbt histOrder 0 1 0 10 3 →
        b = 3 + prevHeights histMbt 0 0 (peakOf histMbt histOrder 0 1) 10 histOrder tr ∧
        h = (valueAt histMbt tr ((0 : ℤ) + ((0 : ℕ) : ℤ)) / peakOf histMbt histOrder 0 1) * 10)) :=
  histogram_stacking histMbt histOrder 0 1 0 10 3 (by decide) (by decide)
    (by decide) (by decide)

/-! ### Lane scheduler: smallest-free-slot search -/

lemma filter_length_le_of_imp (l : List ℕ) (p q : ℕ → Bool)
    (h : ∀ x, p x = true → q x = true) :
    (l.filter p).length ≤ (l.filter q).length := by
  induction l with
  | nil => exact le_refl 0
  | cons a t ih =>
    rw [List.filter_cons, List.filter_cons]
    by_cases hp : p a = true
    · rw [hp, h a hp]
      simpa using ih
    · rw [Bool.eq_false_iff.mpr hp]
      by_cases hq : q a = true
      · rw [hq]
        exact le_trans ih (by simp)
      · rw [Bool.eq_false_iff.mpr hq]
        exact ih

lemma filter_ge_length_lt (used : List ℕ) (s : ℕ) (hs : s ∈ used) :
    (used.filter (fun x => decide (s + 1 ≤ x))).length <
      (used.filter (fun x => decide (s ≤ x))).length := by
  induction used with
  | nil => cases hs
  | cons a t ih =>
    have hmono : (t.filter (fun x => decide (s + 1 ≤ x))).length ≤
        (t.filter (fun x => decide (s ≤ x))).length := by
      refine filter_length_le_of_imp t _ _ ?_
      intro x hx
      have hx' := of_decide_eq_true hx
      exact decide_eq_true (by omega : s ≤ x)
    rcases List.mem_cons.mp hs with rfl | h
    · rw [List.filter_cons_of_neg (by simp only [decide_eq_true_eq]; omega),
          List.filter_cons_of_pos (by simp only [decide_eq_true_eq]; omega)]
      simp only [List.length_cons]
      omega
    · by_cases ha : s + 1 ≤ a
      · rw [List.filter_cons_of_pos (by simp only [decide_eq_true_eq]; omega),
            List.filter_cons_of_pos (by simp only [decide_eq_true_eq]; omega)]
        simp only [List.length_cons]
        exact Nat.succ_lt_succ (ih h)
      · by_cases ha2 : s ≤ a
        · rw [List.filter_cons_of_neg (by simp only [decide_eq_true_eq]; omega),
              List.filter_cons_of_pos (by simp only [decide_eq_true_eq]; omega)]
          simp only [List.length_cons]
          exact lt_of_lt_of_le (ih h) (by omega)
        · rw [List.filter_cons_of_neg (by simp only [decide_eq_true_eq]; omega),
              List.filter_cons_of_neg (by simp only [decide_eq_true_eq]; omega)]
          exact ih h

lemma mexAux_spec (used : List ℕ) :
    ∀ (fuel s : ℕ), (used.filter (fun x => decide (s ≤ x))).length < fuel →
      mexAux used fuel s ∉ used ∧
      ∀ k, s ≤ k → k < mexAux used fuel s → k ∈ used := by
  intro fuel
  induction fuel with
  | zero => intro s h; omega
  | succ fuel ih =>
    intro s h
    rw [mexAux]
    by_cases hs : s ∈ used
    · rw [if_pos hs]
      have hlt : (used.filter (fun x => decide (s + 1 ≤ x))).length < fuel :=
        lt_of_lt_of_le (filter_ge_length_lt used s hs) (Nat.lt_succ_iff.mp h)
      obtain ⟨h1, h2⟩ := ih (s + 1) hlt
      refine ⟨h1, ?_⟩
      intro k hk1 hk2
      rcases Nat.eq_or_lt_of_le hk1 with rfl | hk
      · exact hs
      · exact h2 k hk hk2
    · rw [if_neg hs]
      exact ⟨hs, fun k hk1 hk2 => absurd hk2 (not_lt.mpr hk1)⟩

lemma mex_spec (used : List ℕ) :
    mex used ∉ used ∧ ∀ k, k < mex used → k ∈ used := by
  have hfuel : (used.filter (fun x => decide (0 ≤ x))).length < used.length + 1 :=
    Nat.lt_succ_iff.mpr (List.length_filter_le _ _)
  obtain ⟨h1, h2⟩ := mexAux_spec used (used.length + 1) 0 hfuel
  exact ⟨h1, fun k hk => h2 k (Nat.zero_le k) hk⟩

/-! ### Lane scheduler: invariants of the greedy loop -/

lemma runSched_map_fst : ∀ (l : List Task) (active : List (ℤ × ℕ)),
    (runSched l active).map Prod.fst = l := by
  intro l
  induction l with
  | nil => intro active; rfl
  | cons t rest ih =>
    intro active
    simp only [runSched, List.map_cons]
    rw [ih]

lemma runSched_length (l : List Task) (active : List (ℤ × ℕ)) :
    (runSched l active).length = l.length := by
  have h := runSched_map_fst l active
  calc (runSched l active).length
      = ((runSched l active).map Prod.fst).length := (List.length_map _ _).symm
    _ = l.length := by rw [h]

lemma runSched_fst_mem (l : List Task) (active : List (ℤ × ℕ))
    (p : Task × ℕ) (hp : p ∈ runSched l active) : p.1 ∈ l := by
  have := List.mem_map_of_mem Prod.fst hp
  rwa [runSched_map_fst] at this

/-- No task gets the slot of any still-relevant active entry: the freshly
chosen slot avoids every active entry whose end date has not passed the
task's start. -/
lemma runSched_active_sep : ∀ (l : List Task) (active : List (ℤ × ℕ)),
    l.Pairwise byStart →
    ∀ p ∈ runSched l active, ∀ a ∈ active, p.1.start_date ≤ a.1 → p.2 ≠ a.2 := by
  intro l
  induction l with
  | nil =>
    intro active _ p hp
    simp [runSched] at hp
  | cons t rest ih =>
    intro active hsort p hp a ha hle
    obtain ⟨hhead, htail⟩ := List.pairwise_cons.mp hsort
    simp only [runSched] at hp
    rcases List.mem_cons.mp hp with rfl | hp'
    · intro hEq
      have ha2 : a ∈ active.filter (fun x => decide (t.start_date ≤ x.1)) :=
        List.mem_filter.mpr ⟨ha, decide_eq_true hle⟩
      have hmem : a.2 ∈ (active.filter (fun x => decide (t.start_date ≤ x.1))).map Prod.snd :=
        List.mem_map_of_mem _ ha2
      exact (mex_spec _).1 (hEq ▸ hmem)
    · have hpfst : p.1 ∈ rest := runSched_fst_mem rest _ p hp'
      have hts : t.start_date ≤ p.1.start_date := hhead p.1 hpfst
      have ha2 : a ∈ active.filter (fun x => decide (t.start_date ≤ x.1)) :=
        List.mem_filter.mpr ⟨ha, decide_eq_true (le_trans hts hle)⟩
      exact ih _ htail p hp' a (List.mem_append.mpr (Or.inl ha2)) hle

/-- Pairwise separation: an earlier-processed task whose end date reaches a
later task's start date never shares its slot. -/
lemma runSched_pairwise : ∀ (l : List Task) (active : List (ℤ × ℕ)),
    l.Pairwise byStart →
    (runSched l active).Pairwise
      (fun p q => q.1.start_date ≤ taskEnd p.1 → p.2 ≠ q.2) := by
  intro l
  induction l with
  | nil => intro active _; simp [runSched]
  | cons t rest ih =>
    intro active hsort
    obtain ⟨hhead, htail⟩ := List.pairwise_cons.mp hsort
    simp only [runSched]
    rw [List.pairwise_cons]
    constructor
    · intro q hq hle
      have hmem : ((taskEnd t,
          mex ((active.filter (fun x => decide (t.start_date ≤ x.1))).map Prod.snd)) : ℤ × ℕ) ∈
          active.filter (fun x => decide (t.start_date ≤ x.1)) ++
            [(taskEnd t,
              mex ((active.filter (fun x => decide (t.start_date ≤ x.1))).map Prod.snd))] :=
        List.mem_append.mpr (Or.inr (List.mem_singleton.mpr rfl))
      have hsep := runSched_active_sep rest _ htail q hq _ hmem hle
      exact fun hEq => hsep hEq.symm
    · exact ih _ htail

/-- Completeness of the greedy choice: every slot below an assigned slot is
taken either by a still-relevant initial active entry or by an earlier task
whose interval reaches this task's start date. -/
lemma runSched_complete : ∀ (l : List Task) (active : List (ℤ × ℕ)),
    l.Pairwise byStart →
    ∀ p ∈ runSched l active, ∀ k, k < p.2 →
      (∃ a ∈ active, p.1.start_date ≤ a.1 ∧ a.2 = k) ∨
      (∃ q ∈ runSched l active, q.1.start_date ≤ p.1.start_date ∧
        p.1.start_date ≤ taskEnd q.1 ∧ q.2 = k) := by
  intro l
  induction l with
  | nil =>
    intro active _ p hp
    simp [runSched] at hp
  | cons t rest ih =>
    intro active hsort p hp k hk
    obtain ⟨hhead, htail⟩ := List.pairwise_cons.mp hsort
    simp only [runSched] at hp ⊢
    rcases List.mem_cons.mp hp with rfl | hp'
    · left
      have hkmem : k ∈ (active.filter (fun x => decide (t.start_date ≤ x.1))).map Prod.snd :=
        (mex_spec _).2 k hk
      obtain ⟨a, ha, hak⟩ := List.mem_map.mp hkmem
      have hfa := List.mem_filter.mp ha
      exact ⟨a, hfa.1, of_decide_eq_true hfa.2, hak⟩
    · have hpfst : p.1 ∈ rest := runSched_fst_mem rest _ p hp'
      have hts : t.start_date ≤ p.1.start_date := hhead p.1 hpfst
      rcases ih _ htail p hp' k hk with ⟨a, ha, hale, hak⟩ | ⟨q, hq, hq1, hq2, hq3⟩
      · rcases List.mem_append.mp ha with ha2 | hnew
        · left
          have hfa := List.mem_filter.mp ha2
          exact ⟨a, hfa.1, hale, hak⟩
        · right
          have haeq := List.mem_singleton.mp hnew
          refine ⟨(t, mex ((active.filter
            (fun x => decide (t.start_date ≤ x.1))).map Prod.snd)),
            List.mem_cons_self _ _, hts, ?_, ?_⟩
          · rw [haeq] at hale
            exact hale
          · rw [haeq] at hak
            exact hak
      · right
        exact ⟨q, List.mem_cons_of_mem _ hq, hq1, hq2, hq3⟩

lemma assignSlots_pairwise (ts : List Task) :
    (assignSlots ts).Pairwise (fun p q => overlap p.1 q.1 → p.2 ≠ q.2) := by
  have hs : (ts.insertionSort byStart).Pairwise byStart :=
    List.sorted_insertionSort byStart ts
  refine (runSched_pairwise (ts.insertionSort byStart) [] hs).imp ?_
  intro p q himp hov
  obtain ⟨d, ⟨_, hd2⟩, ⟨hd3, _⟩⟩ := hov
  exact himp (le_trans hd3 hd2)

/-! ### Claim C2 -/

/-- Claim C2: two distinct tasks of the same contractor whose inclusive
date intervals intersect are assigned different lanes. -/
theorem no_overlap_invariant (ts : List Task) (c : String) (i j : ℕ)
    (hi : i < (assignSlots (tasksOf ts c)).length)
    (hj : j < (assignSlots (tasksOf ts c)).length) (hij : i ≠ j)
    (hov : overlap ((assignSlots (tasksOf ts c)).get ⟨i, hi⟩).1
      ((assignSlots (tasksOf ts c)).get ⟨j, hj⟩).1) :
    ((assignSlots (tasksOf ts c)).get ⟨i, hi⟩).2 ≠
      ((assignSlots (tasksOf ts c)).get ⟨j, hj⟩).2 := by
  have hpw := assignSlots_pairwise (tasksOf ts c)
  rw [List.pairwise_iff_get] at hpw
  rcases lt_or_gt_of_ne hij with h | h
  · exact hpw ⟨i, hi⟩ ⟨j, hj⟩ (Fin.mk_lt_mk.mpr h) hov
  · have hov' : overlap ((assignSlots (tasksOf ts c)).get ⟨j, hj⟩).1
        ((assignSlots (tasksOf ts c)).get ⟨i, hi⟩).1 := by
      obtain ⟨d, h1, h2⟩ := hov
      exact ⟨d, h2, h1⟩
    exact (hpw ⟨j, hj⟩ ⟨i, hi⟩ (Fin.mk_lt_mk.mpr h) hov').symm

/-- Witness for C2: contractor A's two overlapping example tasks
(start 4 duration 3, start 5 duration 2) get different lanes. -/
theorem no_overlap_witness :
    ((assignSlots (tasksOf exampleTasks ("A"))).get ⟨0, by decide⟩).2 ≠
      ((assignSlots (tasksOf exampleTasks ("A"))).get ⟨1, by decide⟩).2 :=
  no_overlap_invariant exampleTasks ("A") 0 1 (by decide) (by decide)
    (by decide) ⟨5, by decide, by decide⟩

/-! ### Claim C1 -/

lemma depth_eq_filter_assign (X : List Task) (d : ℤ) :
    depth X d = ((assignSlots X).filter (fun p => decide (covers p.1 d))).length := by
  have hperm : (X.insertionSort byStart).Perm X := List.perm_insertionSort byStart X
  have hfst : (assignSlots X).map Prod.fst = X.insertionSort byStart :=
    runSched_map_fst _ _
  have h1 : (X.filter (fun t => decide (covers t d))).length =
      ((X.insertionSort byStart).filter (fun t => decide (covers t d))).length :=
    (hperm.filter _).length_eq.symm
  have h2 : (X.insertionSort byStart).filter (fun t => decide (covers t d)) =
      ((assignSlots X).filter (fun p => decide (covers p.1 d))).map Prod.fst := by
    rw [← hfst, List.filter_map]
    rfl
  rw [depth, h1, h2, List.length_map]

lemma lane_opt_general (X : List Task) (hdur : ∀ t ∈ X, 1 ≤ t.duration_days) :
    IsGreatest (Set.range (depth X)) (laneCount X) := by
  have hub : ∀ d, depth X d ≤ laneCount X := by
    intro d
    rw [depth_eq_filter_assign, laneCount]
    have hpwcovs : ((assignSlots X).filter (fun p => decide (covers p.1 d))).Pairwise
        (fun p q => p.2 ≠ q.2) := by
      refine ((assignSlots_pairwise X).sublist (List.filter_sublist _)).imp_of_mem ?_
      intro p q hp hq himp
      have hcp : covers p.1 d := of_decide_eq_true (List.mem_filter.mp hp).2
      have hcq : covers q.1 d := of_decide_eq_true (List.mem_filter.mp hq).2
      exact himp ⟨d, hcp, hcq⟩
    have hnd : (((assignSlots X).filter
        (fun p => decide (covers p.1 d))).map Prod.snd).Nodup :=
      List.pairwise_map.mpr hpwcovs
    have hsub : (((assignSlots X).filter
        (fun p => decide (covers p.1 d))).map Prod.snd).toFinset ⊆
        ((assignSlots X).map Prod.snd).toFinset := by
      intro x hx
      rw [List.mem_toFinset] at hx ⊢
      obtain ⟨p, hp, rfl⟩ := List.mem_map.mp hx
      exact List.mem_map_of_mem _ (List.mem_of_mem_filter hp)
    calc ((assignSlots X).filter (fun p => decide (covers p.1 d))).length
        = (((assignSlots X).filter
            (fun p => decide (covers p.1 d))).map Prod.snd).length :=
          (List.length_map _ _).symm
      _ = (((assignSlots X).filter
            (fun p => decide (covers p.1 d))).map Prod.snd).toFinset.card :=
          (List.toFinset_card_of_nodup hnd).symm
      _ ≤ ((assignSlots X).map Prod.snd).toFinset.card := Finset.card_le_card hsub
  have hmem : ∃ d, depth X d = laneCount X := by
    rcases eq_or_ne (assignSlots X) [] with hnil | hne
    · refine ⟨0, ?_⟩
      rw [depth_eq_filter_assign, laneCount, hnil]
      rfl
    · have hSne : ((assignSlots X).map Prod.snd).toFinset.Nonempty := by
        cases hR : assignSlots X with
        | nil => exact absurd hR hne
        | cons p R' => exact ⟨p.2, by simp⟩
      set m := ((assignSlots X).map Prod.snd).toFinset.max' hSne with hm
      have hmmem : m ∈ ((assignSlots X).map Prod.snd).toFinset := Finset.max'_mem _ _
      rw [List.mem_toFinset] at hmmem
      obtain ⟨pstar, hpstar, hpstar2⟩ := List.mem_map.mp hmmem
      have hlc_le : laneCount X ≤ m + 1 := by
        rw [laneCount]
        have hsub2 : ((assignSlots X).map Prod.snd).toFinset ⊆ Finset.range (m + 1) := by
          intro x hx
          rw [Finset.mem_range, Nat.lt_succ_iff]
          exact Finset.le_max' _ x hx
        calc ((assignSlots X).map Prod.snd).toFinset.card
            ≤ (Finset.range (m + 1)).card := Finset.card_le_card hsub2
          _ = m + 1 := Finset.card_range _
      have hsorted : (X.insertionSort byStart).Pairwise byStart :=
        List.sorted_insertionSort byStart X
      have hcover_all : ∀ k, k ≤ m →
          ∃ q ∈ assignSlots X, covers q.1 pstar.1.start_date ∧ q.2 = k := by
        intro k hk
        rcases eq_or_lt_of_le hk with rfl | hklt
        · have hdm : 1 ≤ pstar.1.duration_days := by
            apply hdur
            have h1 : pstar.1 ∈ X.insertionSort byStart :=
              runSched_fst_mem _ _ pstar hpstar
            exact (List.perm_insertionSort byStart X).mem_iff.mp h1
          refine ⟨pstar, hpstar, ⟨le_refl _, ?_⟩, hpstar2⟩
          rw [taskEnd]
          omega
        · have hc := runSched_complete (X.insertionSort byStart) [] hsorted pstar
            hpstar k (by rw [hpstar2]; exact hklt)
          rcases hc with ⟨a, ha, _⟩ | ⟨q, hq, hq1, hq2, hq3⟩
          · cases ha
          · exact ⟨q, hq, ⟨hq1, hq2⟩, hq3⟩
      have hrange_sub : Finset.range (m + 1) ⊆
          (((assignSlots X).filter
            (fun p => decide (covers p.1 pstar.1.start_date))).map Prod.snd).toFinset := by
        intro k hk
        rw [List.mem_toFinset]
        obtain ⟨q, hq, hqc, hqk⟩ :=
          hcover_all k (Nat.lt_succ_iff.mp (Finset.mem_range.mp hk))
        exact List.mem_map.mpr ⟨q, List.mem_filter.mpr ⟨hq, decide_eq_true hqc⟩, hqk⟩
      have hdge : m + 1 ≤ depth X pstar.1.start_date := by
        rw [depth_eq_filter_assign]
        calc m + 1 = (Finset.range (m + 1)).card := (Finset.card_range _).symm
          _ ≤ (((assignSlots X).filter
              (fun p => decide (covers p.1 pstar.1.start_date))).map Prod.snd).toFinset.card :=
            Finset.card_le_card hrange_sub
          _ ≤ (((assignSlots X).filter
              (fun p => decide (covers p.1 pstar.1.start_date))).map Prod.snd).length :=
            List.toFinset_card_le _
          _ = ((assignSlots X).filter
              (fun p => decide (covers p.1 pstar.1.start_date))).length :=
            List.length_map _ _
      exact ⟨pstar.1.start_date, le_antisymm (hub _) (le_trans hlc_le hdge)⟩
  obtain ⟨d, hd⟩ := hmem
  refine ⟨⟨d, hd⟩, ?_⟩
  intro x hx
  obtain ⟨d', rfl⟩ := hx
  exact hub d'

/-- Claim C1: for every contractor and every list of that contractor's
tasks with `duration_days ≥ 1`, the number of distinct lane indices the
scheduler assigns equals the maximum, over all calendar days, of the number
of that contractor's tasks covering the day. -/
theorem lane_optimality (ts : List Task) (c : String)
    (hdur : ∀ t ∈ tasksOf ts c, 1 ≤ t.duration_days) :
    IsGreatest (Set.range (depth (tasksOf ts c))) (laneCount (tasksOf ts c)) :=
  lane_opt_general (tasksOf ts c) hdur

/-- Witness for C1: contractor A's two overlapping example tasks use
exactly 2 lanes, the maximum simultaneous overlap. -/
theorem lane_optimality_witness :
    laneCount (tasksOf exampleTasks ("A")) = 2 ∧
    IsGreatest (Set.range (depth (tasksOf exampleTasks ("A"))))
      (laneCount (tasksOf exampleTasks ("A"))) :=
  ⟨by decide, lane_optimality exampleTasks ("A") (by decide)⟩

/-! ### Claim C3 -/

lemma mem_addIfNew (acc : List String) (a x : String) :
    x ∈ addIfNew acc a ↔ x ∈ acc ∨ x = a := by
  rw [addIfNew]
  split_ifs with h
  · constructor
    · exact Or.inl
    · rintro (hx | rfl)
      · exact hx
      · exact h
  · simp

lemma nodup_addIfNew (acc : List String) (a : String) (h : acc.Nodup) :
    (addIfNew acc a).Nodup := by
  rw [addIfNew]
  split_ifs with hmem
  · exact h
  · rw [List.nodup_append]
    exact ⟨h, List.nodup_singleton a,
      fun x hx hxa => hmem ((List.mem_singleton.mp hxa) ▸ hx)⟩

lemma foldl_addIfNew_mem : ∀ (l acc : List String) (x : String),
    x ∈ l.foldl addIfNew acc ↔ x ∈ acc ∨ x ∈ l := by
  intro l
  induction l with
  | nil => intro acc x; simp
  | cons a t ih =>
    intro acc x
    rw [List.foldl_cons, ih, mem_addIfNew]
    constructor
    · rintro ((hx | rfl) | hx)
      · exact Or.inl hx
      · exact Or.inr (List.mem_cons_self _ _)
      · exact Or.inr (List.mem_cons_of_mem _ hx)
    · rintro (hx | hx)
      · exact Or.inl (Or.inl hx)
      · rcases List.mem_cons.mp hx with rfl | hx2
        · exact Or.inl (Or.inr rfl)
        · exact Or.inr hx2

lemma foldl_addIfNew_nodup : ∀ (l acc : List String), acc.Nodup →
    (l.foldl addIfNew acc).Nodup := by
  intro l
  induction l with
  | nil => intro acc h; exact h
  | cons a t ih =>
    intro acc h
    rw [List.foldl_cons]
    exact ih _ (nodup_addIfNew acc a h)

lemma contractorsOf_mem (ts : List Task) (x : String) :
    x ∈ contractorsOf ts ↔ ∃ t ∈ ts, t.contractor = x := by
  rw [contractorsOf, foldl_addIfNew_mem]
  simp [List.mem_map]

lemma contractorsOf_nodup (ts : List Task) : (contractorsOf ts).Nodup :=
  foldl_addIfNew_nodup _ [] List.nodup_nil

lemma mem_orderedContractors (ts : List Task) (x : String) :
    x ∈ orderedContractors ts ↔ x ∈ contractorsOf ts := by
  rw [orderedContractors, List.mem_append]
  constructor
  · rintro (h | h)
    · exact of_decide_eq_true (List.mem_filter.mp h).2
    · exact (List.mem_filter.mp h).1
  · intro h
    by_cases hp : x ∈ preferredOrder
    · exact Or.inl (List.mem_filter.mpr ⟨hp, decide_eq_true h⟩)
    · exact Or.inr (List.mem_filter.mpr ⟨h, decide_eq_true hp⟩)

lemma orderedContractors_nodup (ts : List Task) : (orderedContractors ts).Nodup := by
  rw [orderedContractors, List.nodup_append]
  refine ⟨List.Nodup.filter _ (by decide), (contractorsOf_nodup ts).filter _, ?_⟩
  intro x hx1 hx2
  have hp1 : x ∈ preferredOrder := List.mem_of_mem_filter hx1
  have hp2 : x ∉ preferredOrder := of_decide_eq_true (List.mem_filter.mp hx2).2
  exact hp2 hp1

lemma sublist_pair_of_mem : ∀ (l : List String), l.Nodup → ∀ (a b : String),
    a ∈ l → b ∈ l → a ≠ b → [a, b].Sublist l ∨ [b, a].Sublist l := by
  intro l
  induction l with
  | nil => intro _ a b ha; cases ha
  | cons x t ih =>
    intro hnd a b ha hb hab
    obtain ⟨hxt, hndt⟩ := List.nodup_cons.mp hnd
    rcases List.mem_cons.mp ha with rfl | hat
    · have hbt : b ∈ t := by
        rcases List.mem_cons.mp hb with rfl | h
        · exact absurd rfl hab
        · exact h
      exact Or.inl (List.Sublist.cons₂ a (List.singleton_sublist.mpr hbt))
    · rcases List.mem_cons.mp hb with rfl | hbt
      · exact Or.inr (List.Sublist.cons₂ b (List.singleton_sublist.mpr hat))
      · rcases ih hndt a b hat hbt hab with h | h
        · exact Or.inl (List.Sublist.cons x h)
        · exact Or.inr (List.Sublist.cons x h)

lemma contribOf_nonneg (ts : List Task) (c : String) : 0 ≤ contribOf ts c := by
  rw [contribOf]
  split_ifs with h
  · omega
  · exact le_refl 0

lemma baseOffsetAux_ge (ts : List Task) : ∀ (l : List String) (cur : ℤ) (c : String),
    c ∈ l → cur ≤ baseOffsetAux ts l cur c := by
  intro l
  induction l with
  | nil => intro cur c hc; cases hc
  | cons x t ih =>
    intro cur c hc
    rw [baseOffsetAux]
    split_ifs with hx
    · exact le_refl cur
    · have hct : c ∈ t := by
        rcases List.mem_cons.mp hc with rfl | h
        · exact absurd rfl hx
        · exact h
      have hnn := contribOf_nonneg ts x
      calc cur ≤ cur + contribOf ts x := by omega
        _ ≤ baseOffsetAux ts t (cur + contribOf ts x) c := ih _ c hct

lemma baseOffsetAux_gap (ts : List Task) : ∀ (l : List String) (cur : ℤ) (c1 c2 : String),
    l.Nodup → [c1, c2].Sublist l →
    baseOffsetAux ts l cur c1 + contribOf ts c1 ≤ baseOffsetAux ts l cur c2 := by
  intro l
  induction l with
  | nil =>
    intro cur c1 c2 _ hs
    exact absurd (hs.subset (List.mem_cons_self _ _)) (List.not_mem_nil c1)
  | cons x t ih =>
    intro cur c1 c2 hnd hs
    obtain ⟨hxt, hndt⟩ := List.nodup_cons.mp hnd
    cases hs with
    | cons _ h' =>
      have hc1t : c1 ∈ t := h'.subset (List.mem_cons_self _ _)
      have hc2t : c2 ∈ t := h'.subset (by simp)
      have hx1 : ¬ (x = c1) := fun e => hxt (e ▸ hc1t)
      have hx2 : ¬ (x = c2) := fun e => hxt (e ▸ hc2t)
      rw [baseOffsetAux, baseOffsetAux, if_neg hx1, if_neg hx2]
      exact ih (cur + contribOf ts x) c1 c2 hndt h'
    | cons₂ _ h' =>
      have hc2t : c2 ∈ t := List.singleton_sublist.mp h'
      have hne : ¬ (x = c2) := fun e => hxt (e ▸ hc2t)
      rw [baseOffsetAux, baseOffsetAux, if_pos rfl, if_neg hne]
      exact baseOffsetAux_ge ts t (cur + contribOf ts x) c2 hc2t

lemma maxSlot_foldl_ge_init : ∀ (R : List (Task × ℕ)) (m : ℤ),
    m ≤ R.foldl (fun acc p => max acc (p.2 : ℤ)) m := by
  intro R
  induction R with
  | nil => intro m; exact le_refl m
  | cons p t ih =>
    intro m
    rw [List.foldl_cons]
    exact le_trans (le_max_left m (p.2 : ℤ)) (ih _)

lemma maxSlot_foldl_ge_mem : ∀ (R : List (Task × ℕ)) (m : ℤ) (p : Task × ℕ),
    p ∈ R → (p.2 : ℤ) ≤ R.foldl (fun acc q => max acc (q.2 : ℤ)) m := by
  intro R
  induction R with
  | nil => intro m p hp; cases hp
  | cons q t ih =>
    intro m p hp
    rw [List.foldl_cons]
    rcases List.mem_cons.mp hp with rfl | h
    · exact le_trans (le_max_right m (p.2 : ℤ)) (maxSlot_foldl_ge_init t _)
    · exact ih _ p h

lemma maxSlotOf_ge (R : List (Task × ℕ)) (p : Task × ℕ) (hp : p ∈ R) :
    (p.2 : ℤ) ≤ maxSlotOf R := by
  rw [maxSlotOf]
  exact maxSlot_foldl_ge_mem R (-1) p hp

lemma maxSlotOf_nonneg (R : List (Task × ℕ)) (h : R ≠ []) : 0 ≤ maxSlotOf R := by
  cases R with
  | nil => exact absurd rfl h
  | cons p t =>
    have hge := maxSlotOf_ge (p :: t) p (List.mem_cons_self _ _)
    omega

lemma tasksOf_mem_contractors (ts : List Task) (c : String)
    (h : tasksOf ts c ≠ []) : c ∈ contractorsOf ts := by
  rw [contractorsOf_mem]
  rcases hT : tasksOf ts c with _ | ⟨t, rest⟩
  · exact absurd hT h
  · have hmem : t ∈ tasksOf ts c := by
      rw [hT]
      exact List.mem_cons_self _ _
    have hf := List.mem_filter.mp hmem
    exact ⟨t, hf.1, of_decide_eq_true hf.2⟩

lemma assignSlots_ne_nil (X : List Task) (h : X ≠ []) : assignSlots X ≠ [] := by
  intro hnil
  have hlen := runSched_length (X.insertionSort byStart) []
  rw [assignSlots] at hnil
  rw [hnil] at hlen
  have hperm := (List.perm_insertionSort byStart X).length_eq
  simp only [List.length_nil] at hlen
  rw [hperm] at hlen
  exact h (List.length_eq_zero.mp hlen.symm)

/-- Claim C3: two contractors that each have at least one task get disjoint
stack-index ranges `[base_offset, base_offset + max_lane]` (base offsets
being the running sums over the stacking order), so no two tasks of
different contractors share a final stack index. -/
theorem stack_disjointness (ts : List Task) (c1 c2 : String) (hne : c1 ≠ c2)
    (h1 : tasksOf ts c1 ≠ []) (h2 : tasksOf ts c2 ≠ []) :
    (∀ x : ℤ,
      baseOffset ts c1 ≤ x →
      x ≤ baseOffset ts c1 + maxSlotOf (assignSlots (tasksOf ts c1)) →
      ¬(baseOffset ts c2 ≤ x ∧
        x ≤ baseOffset ts c2 + maxSlotOf (assignSlots (tasksOf ts c2)))) ∧
    (∀ p ∈ assignSlots (tasksOf ts c1), ∀ q ∈ assignSlots (tasksOf ts c2),
      baseOffset ts c1 + (p.2 : ℤ) ≠ baseOffset ts c2 + (q.2 : ℤ)) := by
  have hm1 : 0 ≤ maxSlotOf (assignSlots (tasksOf ts c1)) :=
    maxSlotOf_nonneg _ (assignSlots_ne_nil _ h1)
  have hm2 : 0 ≤ maxSlotOf (assignSlots (tasksOf ts c2)) :=
    maxSlotOf_nonneg _ (assignSlots_ne_nil _ h2)
  have hc1 : c1 ∈ orderedContractors ts :=
    (mem_orderedContractors ts c1).mpr (tasksOf_mem_contractors ts c1 h1)
  have hc2 : c2 ∈ orderedContractors ts :=
    (mem_orderedContractors ts c2).mpr (tasksOf_mem_contractors ts c2 h2)
  have hnd := orderedContractors_nodup ts
  have key : ∀ a b : String, tasksOf ts a ≠ [] →
      [a, b].Sublist (orderedContractors ts) →
      baseOffset ts a + maxSlotOf (assignSlots (tasksOf ts a)) < baseOffset ts b := by
    intro a b ha hs
    have hg := baseOffsetAux_gap ts (orderedContractors ts) 0 a b hnd hs
    have hca : contribOf ts a = maxSlotOf (assignSlots (tasksOf ts a)) + 1 := by
      rw [contribOf, if_pos (maxSlotOf_nonneg _ (assignSlots_ne_nil _ ha))]
    rw [baseOffset, baseOffset]
    rw [hca] at hg
    omega
  rcases sublist_pair_of_mem (orderedContractors ts) hnd c1 c2 hc1 hc2 hne with hs | hs
  · have hk := key c1 c2 h1 hs
    constructor
    · intro x hx1 hx2 hy
      obtain ⟨hy1, hy2⟩ := hy
      omega
    · intro p hp q hq
      have hp2 : (p.2 : ℤ) ≤ maxSlotOf (assignSlots (tasksOf ts c1)) :=
        maxSlotOf_ge _ p hp
      have hq2 : (0 : ℤ) ≤ (q.2 : ℤ) := Int.natCast_nonneg _
      omega
  · have hk := key c2 c1 h2 hs
    constructor
    · intro x hx1 hx2 hy
      obtain ⟨hy1, hy2⟩ := hy
      omega
    · intro p hp q hq
      have hq2 : (q.2 : ℤ) ≤ maxSlotOf (assignSlots (tasksOf ts c2)) :=
        maxSlotOf_ge _ q hq
      have hp2 : (0 : ℤ) ≤ (p.2 : ℤ) := Int.natCast_nonneg _
      omega

/-- Witness for C3: contractors A and B of the example task list have
disjoint stack ranges and never share a stack index. -/
theorem stack_disjointness_witness :
    (∀ x : ℤ,
      baseOffset exampleTasks ("A") ≤ x →
      x ≤ baseOffset exampleTasks ("A") +
        maxSlotOf (assignSlots (tasksOf exampleTasks ("A"))) →
      ¬(baseOffset exampleTasks ("B") ≤ x ∧
        x ≤ baseOffset exampleTasks ("B") +
          maxSlotOf (assignSlots (tasksOf exampleTasks ("B"))))) ∧
    (∀ p ∈ assignSlots (tasksOf exampleTasks ("A")),
      ∀ q ∈ assignSlots (tasksOf exampleTasks ("B")),
      baseOffset exampleTasks ("A") + (p.2 : ℤ) ≠
        baseOffset exampleTasks ("B") + (q.2 : ℤ)) :=
  stack_disjointness exampleTasks ("A") ("B") (by decide) (by decide) (by decide)

end THF
